import Mathlib

set_option maxHeartbeats 1000000
set_option linter.unusedSectionVars false

/-!
Shallow embedding of `scripts/compute_similarities.py`: the chunked pairwise
similarity computation and canonical pair-persistence pipeline.

Floating-point values are modelled exactly: vector entries are elements of a
linear ordered field (`ℚ` for executable instances, `ℝ` for the parts that
need `Real.sqrt`).  `numpy` row operations become `List` operations.
-/

namespace CompSim

/-- Configuration constant `MIN_SIMILARITY_THRESHOLD = 0.85` from the script. -/
def MIN_SIMILARITY_THRESHOLD {α : Type} [LinearOrderedField α] : α := 85 / 100

/-- Configuration constant `CHUNK_SIZE = 500` from the script. -/
def CHUNK_SIZE : ℕ := 500

/-- Configuration constant `INSERT_BATCH_SIZE = 100` from the script. -/
def INSERT_BATCH_SIZE : ℕ := 100

/-- Dot product of two rows, `np.dot` on equal-length vectors. -/
def dot {α : Type} [LinearOrderedField α] (u v : List α) : α :=
  (List.zipWith (fun a b => a * b) u v).sum

/-- Sum of squares of the entries of a row (the square of `np.linalg.norm`). -/
def sumSq {α : Type} [LinearOrderedField α] (v : List α) : α :=
  (v.map (fun x => x * x)).sum

/-- Python's `round` applied to an exact value: round to the nearest integer,
ties to even. -/
def roundHalfEven {α : Type} [LinearOrderedField α] [FloorRing α] (q : α) : ℤ :=
  if q - (⌊q⌋ : α) < 1 / 2 then ⌊q⌋
  else if (1 : α) / 2 < q - (⌊q⌋ : α) then ⌊q⌋ + 1
  else if ⌊q⌋ % 2 = 0 then ⌊q⌋ else ⌊q⌋ + 1

/-- Python's `round(q, 6)`: round to six decimal digits, ties to even. -/
def round6 {α : Type} [LinearOrderedField α] [FloorRing α] (q : α) : α :=
  ((roundHalfEven (q * 10 ^ 6) : ℤ) : α) / 10 ^ 6

/-- A row of the `pattern_similarities` table, as built at
`compute_similarities.py:202-206`. -/
structure SimPair (α : Type) where
  pattern_id_1 : ℤ
  pattern_id_2 : ℤ
  similarity : α
  deriving DecidableEq

/-- Python `range(start, stop, step)` as a list. -/
def pyRange (start stop step : ℕ) : List ℕ :=
  List.range' start ((stop - start + step - 1) / step) step

/-- The sequence of index pairs `(chunk_idx, compare_idx)` examined and kept by
the four nested loops of `compute_and_store_similarities` (lines 172-193):
chunks of size `C` over `range(0, n, C)`, inner chunks over `range(i, n, C)`,
pair indices over the block with the `chunk_idx >= compare_idx` skip. -/
def chunkCandidates (n C : ℕ) : List (ℕ × ℕ) :=
  (pyRange 0 n C).flatMap (fun i =>
    (pyRange i n C).flatMap (fun j =>
      (pyRange i (min (i + C) n) 1).flatMap (fun ci =>
        (pyRange (max j i) (min (j + C) n) 1).filterMap (fun cj =>
          if ci ≥ cj then none else some (ci, cj)))))

/-- The pure part of the loop body at lines 195-206: threshold test on the
similarity, id canonicalization (smaller id first), rounding of the score.
Returns `none` for a discarded pair. -/
def emitFn {α : Type} [LinearOrderedField α] [FloorRing α]
    (pattern_ids : List ℤ) (normalized : List (List α)) (T : α)
    (p : ℕ × ℕ) : Option (SimPair α) :=
  let sim := dot (normalized.getD p.1 []) (normalized.getD p.2 [])
  if T ≤ sim then
    let idA := pattern_ids.getD p.1 0
    let idB := pattern_ids.getD p.2 0
    if idB < idA then some ⟨idB, idA, round6 sim⟩ else some ⟨idA, idB, round6 sim⟩
  else none

/-- Mutable state of `compute_and_store_similarities`: the list of batches
handed to `insert_similarities` so far, the accumulation buffer
`pairs_to_insert`, and the counter `total_pairs_found`. -/
structure EngineState (α : Type) where
  inserts : List (List (SimPair α))
  pairs_to_insert : List (SimPair α)
  total_pairs_found : ℕ
  deriving DecidableEq

/-- One iteration of the candidate loop (lines 195-212): on an emitted pair,
append it to `pairs_to_insert`, bump the counter, and flush the buffer when it
has reached `INSERT_BATCH_SIZE` (parameter `B`). -/
def processCandidate {α : Type} [LinearOrderedField α] [FloorRing α]
    (pattern_ids : List ℤ) (normalized : List (List α)) (T : α) (B : ℕ)
    (st : EngineState α) (p : ℕ × ℕ) : EngineState α :=
  match emitFn pattern_ids normalized T p with
  | none => st
  | some pr =>
    let buf := st.pairs_to_insert ++ [pr]
    if B ≤ buf.length then
      ⟨st.inserts ++ [buf], [], st.total_pairs_found + 1⟩
    else
      ⟨st.inserts, buf, st.total_pairs_found + 1⟩

/-- The chunked compute-and-store loop of lines 167-221, parameterized by the
threshold `T`, chunk size `C` and insert batch size `B`: fold the loop body
over all candidate index pairs, then flush any remaining buffered pairs
(`if pairs_to_insert: insert_similarities(pairs_to_insert)`). -/
def runEngine {α : Type} [LinearOrderedField α] [FloorRing α]
    (pattern_ids : List ℤ) (normalized : List (List α)) (T : α) (C B : ℕ) :
    EngineState α :=
  let st := (chunkCandidates pattern_ids.length C).foldl
    (processCandidate pattern_ids normalized T B) ⟨[], [], 0⟩
  if st.pairs_to_insert.isEmpty then st
  else ⟨st.inserts ++ [st.pairs_to_insert], [], st.total_pairs_found⟩

/-- The dense reference computation from the spec: the full similarity matrix
of the normalized vectors, keeping only entries with `i < j` that pass the
threshold, each canonicalized exactly like the chunked pipeline. -/
def densePairs {α : Type} [LinearOrderedField α] [FloorRing α]
    (pattern_ids : List ℤ) (normalized : List (List α)) (T : α) :
    List (SimPair α) :=
  ((List.range pattern_ids.length).flatMap (fun i =>
      ((List.range pattern_ids.length).filter (fun j => decide (i < j))).map
        (fun j => (i, j)))).filterMap (emitFn pattern_ids normalized T)

/-- `normalize_embeddings` (lines 100-105) applied to one row: divide the row
by its Euclidean norm, with the norm replaced by `1` when it is `0`
(`np.where(norms == 0, 1, norms)`). -/
noncomputable def normalizeRow (v : List ℝ) : List ℝ :=
  let norm := Real.sqrt (sumSq v)
  let d := if norm = 0 then 1 else norm
  v.map (fun x => x / d)

/-- `normalize_embeddings` (lines 100-105): row-wise normalization of the
embedding matrix. -/
noncomputable def normalize_embeddings (embeddings : List (List ℝ)) : List (List ℝ) :=
  embeddings.map normalizeRow

/-- `compute_and_store_similarities` (lines 150-226): normalize the embeddings,
then run the chunked loop with the configured threshold, chunk size and insert
batch size. -/
noncomputable def compute_and_store_similarities
    (pattern_ids : List ℤ) (embeddings : List (List ℝ)) : EngineState ℝ :=
  runEngine pattern_ids (normalize_embeddings embeddings)
    MIN_SIMILARITY_THRESHOLD CHUNK_SIZE INSERT_BATCH_SIZE

/-- A mutation request issued to the pair store: the bulk delete of
`clear_similarities_table` or one `insert_similarities` batch. -/
inductive StoreOp (α : Type) where
  | clear
  | upsert (batch : List (SimPair α))
  deriving DecidableEq

/-- `get_all_embeddings` (lines 44-97): fetch pages until an empty page; a
failing page (`response.raise_for_status()` or a malformed body) raises,
discarding everything. Each page is modelled by the records it yields, or by
an error. -/
def get_all_embeddings (pages : List (Except Unit (List (ℤ × List ℝ)))) :
    Except Unit (List (ℤ × List ℝ)) :=
  match pages with
  | [] => .ok []
  | page :: rest =>
    match page with
    | .error e => .error e
    | .ok [] => .ok []
    | .ok batch => (get_all_embeddings rest).map (fun more => batch ++ more)

/-- `clear_similarities_table` (lines 108-125): a warning is printed exactly
when the delete response status is not in `[200, 204, 404]`; nothing aborts. -/
def clear_warns (status : ℕ) : Bool := decide (status ∉ [200, 204, 404])

/-- `insert_similarities` (lines 140-147): a warning is printed exactly when
the insert response status is not in `[200, 201]`; nothing aborts. -/
def insert_warns (status : ℕ) : Bool := decide (status ∉ [200, 201])

/-- Observable outcome of one run of `main`: the ordered store mutations
issued, whether the run died with an uncaught exception, the warnings printed
around store calls, and the `total_pairs_found` figure of the end-of-run
summary (`none` when the summary is never reached). -/
structure RunOutcome (α : Type) where
  ops : List (StoreOp α)
  fatal : Bool
  clearWarned : Bool
  insertWarnings : ℕ
  summaryFound : Option ℕ

/-- `main` (lines 229-252): fetch all embeddings (a fetch failure propagates
before any store call), return early when no records were found, otherwise
clear the table, then compute and store, flushing every batch regardless of
per-batch insert status. `clearStatus` and `insertStatus` model the store's
responses to the delete and to the k-th insert call. -/
noncomputable def mainModel (pages : List (Except Unit (List (ℤ × List ℝ))))
    (clearStatus : ℕ) (insertStatus : ℕ → ℕ) : RunOutcome ℝ :=
  match get_all_embeddings pages with
  | .error _ => ⟨[], true, false, 0, none⟩
  | .ok records =>
    if records.length = 0 then ⟨[], false, false, 0, none⟩
    else
      let st := compute_and_store_similarities (records.map Prod.fst) (records.map Prod.snd)
      ⟨StoreOp.clear :: st.inserts.map StoreOp.upsert, false,
        clear_warns clearStatus,
        ((List.range st.inserts.length).filter (fun k => insert_warns (insertStatus k))).length,
        some st.total_pairs_found⟩

/-! ## Arithmetic helper lemmas -/

lemma lt_ceilDiv {C i m : ℕ} (hC : 0 < C) : i < (m + C - 1) / C ↔ C * i < m := by
  rcases Nat.eq_zero_or_pos m with hm | hm
  · subst hm
    simp [Nat.div_eq_of_lt (by omega : C - 1 < C)]
  · rw [Nat.lt_iff_add_one_le, Nat.le_div_iff_mul_le hC]
    have h1 : (i + 1) * C = C * i + C := by ring
    rw [h1]
    generalize C * i = x
    omega

lemma mem_pyRange {a s n C : ℕ} (hC : 0 < C) :
    a ∈ pyRange s n C ↔ ∃ k, a = s + C * k ∧ a < n := by
  unfold pyRange
  rw [List.mem_range']
  constructor
  · rintro ⟨k, hk, rfl⟩
    refine ⟨k, rfl, ?_⟩
    have h2 := (lt_ceilDiv hC).mp hk
    generalize C * k = x at h2 ⊢
    omega
  · rintro ⟨k, rfl, hlt⟩
    refine ⟨k, ?_, rfl⟩
    rw [lt_ceilDiv hC]
    generalize C * k = x at hlt ⊢
    omega

lemma mem_pyRange_one {a s n : ℕ} : a ∈ pyRange s n 1 ↔ s ≤ a ∧ a < n := by
  rw [mem_pyRange Nat.one_pos]
  constructor
  · rintro ⟨k, rfl, h⟩
    omega
  · rintro ⟨h1, h2⟩
    exact ⟨a - s, by omega, h2⟩

lemma chunk_base_le {a C : ℕ} : C * (a / C) ≤ a := by
  conv_rhs => rw [← Nat.div_add_mod a C]
  exact Nat.le_add_right _ _

lemma lt_chunk_base_add {a C : ℕ} (hC : 0 < C) : a < C * (a / C) + C := by
  conv_lhs => rw [← Nat.div_add_mod a C]
  exact Nat.add_lt_add_left (Nat.mod_lt a hC) _

lemma chunk_base_mono {a b C : ℕ} (hab : a ≤ b) : C * (a / C) ≤ C * (b / C) :=
  Nat.mul_le_mul_left C (Nat.div_le_div_right hab)

lemma chunk_base_decompose {a b C : ℕ} (hab : a ≤ b) :
    ∃ k, C * (b / C) = C * (a / C) + C * k := by
  refine ⟨b / C - a / C, ?_⟩
  have h : a / C ≤ b / C := Nat.div_le_div_right hab
  rw [← Nat.mul_add]
  congr 1
  generalize a / C = qa at *
  generalize b / C = qb at *
  omega

/-- Membership in the chunked candidate enumeration is exactly the
upper-triangle condition. -/
lemma mem_chunkCandidates {n C : ℕ} (hC : 0 < C) {a b : ℕ} :
    (a, b) ∈ chunkCandidates n C ↔ a < b ∧ b < n := by
  unfold chunkCandidates
  simp only [List.mem_flatMap, List.mem_filterMap]
  constructor
  · rintro ⟨i, hi, j, hj, ci, hci, cj, hcj, hem⟩
    by_cases h : ci ≥ cj
    · rw [if_pos h] at hem
      exact absurd hem (by simp)
    · rw [if_neg h] at hem
      simp only [Option.some.injEq, Prod.mk.injEq] at hem
      obtain ⟨rfl, rfl⟩ := hem
      rw [mem_pyRange_one] at hcj
      have h2 := hcj.2
      omega
  · rintro ⟨hab, hbn⟩
    have han : a < n := lt_trans hab hbn
    refine ⟨C * (a / C), ?_, C * (b / C), ?_, a, ?_, b, ?_, ?_⟩
    · rw [mem_pyRange hC]
      exact ⟨a / C, (Nat.zero_add _).symm, lt_of_le_of_lt chunk_base_le han⟩
    · rw [mem_pyRange hC]
      obtain ⟨k, hk⟩ := chunk_base_decompose (le_of_lt hab)
      exact ⟨k, hk, lt_of_le_of_lt chunk_base_le hbn⟩
    · rw [mem_pyRange_one]
      exact ⟨chunk_base_le, lt_min (lt_chunk_base_add hC) han⟩
    · rw [mem_pyRange_one]
      rw [max_eq_left (chunk_base_mono (le_of_lt hab))]
      exact ⟨chunk_base_le, lt_min (lt_chunk_base_add hC) hbn⟩
    · rw [if_neg (by omega)]

/-! ## Invariants of the accumulation loop -/

variable {α : Type} [LinearOrderedField α] [FloorRing α]

/-- Flushed batches followed by the live buffer are exactly the emitted pairs,
in emission order; flushing never drops or duplicates a pair. -/
lemma foldl_process_flatten (pattern_ids : List ℤ) (normalized : List (List α))
    (T : α) (B : ℕ) (cs : List (ℕ × ℕ)) :
    ∀ st : EngineState α,
      (cs.foldl (processCandidate pattern_ids normalized T B) st).inserts.flatten
          ++ (cs.foldl (processCandidate pattern_ids normalized T B) st).pairs_to_insert
        = st.inserts.flatten ++ st.pairs_to_insert
            ++ cs.filterMap (emitFn pattern_ids normalized T) := by
  induction cs with
  | nil => intro st; simp
  | cons c cs ih =>
    intro st
    rw [List.foldl_cons, List.filterMap_cons, ih]
    rcases h : emitFn pattern_ids normalized T c with _ | pr
    · simp [processCandidate, h]
    · simp only [processCandidate, h]
      split
      · simp
      · simp

/-- The counter `total_pairs_found` counts exactly the emitted pairs. -/
lemma foldl_process_total (pattern_ids : List ℤ) (normalized : List (List α))
    (T : α) (B : ℕ) (cs : List (ℕ × ℕ)) :
    ∀ st : EngineState α,
      (cs.foldl (processCandidate pattern_ids normalized T B) st).total_pairs_found
        = st.total_pairs_found + (cs.filterMap (emitFn pattern_ids normalized T)).length := by
  induction cs with
  | nil => intro st; simp
  | cons c cs ih =>
    intro st
    rw [List.foldl_cons, List.filterMap_cons, ih]
    rcases h : emitFn pattern_ids normalized T c with _ | pr
    · simp [processCandidate, h]
    · simp only [processCandidate, h]
      split
      · simp; omega
      · simp; omega

/-- The loop keeps the live buffer strictly below the batch size and every
flushed batch nonempty and within the batch size. -/
lemma foldl_process_bound (pattern_ids : List ℤ) (normalized : List (List α))
    (T : α) (B : ℕ) (cs : List (ℕ × ℕ)) :
    ∀ st : EngineState α,
      st.pairs_to_insert.length < B →
      (∀ bt ∈ st.inserts, bt ≠ [] ∧ bt.length ≤ B) →
      (cs.foldl (processCandidate pattern_ids normalized T B) st).pairs_to_insert.length < B
        ∧ ∀ bt ∈ (cs.foldl (processCandidate pattern_ids normalized T B) st).inserts,
            bt ≠ [] ∧ bt.length ≤ B := by
  induction cs with
  | nil => intro st h1 h2; exact ⟨h1, h2⟩
  | cons c cs ih =>
    intro st h1 h2
    rw [List.foldl_cons]
    rcases h : emitFn pattern_ids normalized T c with _ | pr
    · have hstep : processCandidate pattern_ids normalized T B st c = st := by
        simp [processCandidate, h]
      rw [hstep]
      exact ih st h1 h2
    · simp only [processCandidate, h]
      split
      · apply ih
        · simpa using by omega
        · intro bt hbt
          rcases List.mem_append.mp hbt with hbt | hbt
          · exact h2 bt hbt
          · rw [List.mem_singleton] at hbt
            subst hbt
            refine ⟨by simp, ?_⟩
            simp only [List.length_append, List.length_singleton]
            omega
      · apply ih
        · simp only [List.length_append, List.length_singleton]
          rename_i hfl
          simp only [List.length_append, List.length_singleton] at hfl
          omega
        · exact h2

/-- The pairs handed to the store over the whole run are exactly the emitted
pairs, in emission order, independent of the insert batch size. -/
lemma runEngine_flatten (pattern_ids : List ℤ) (normalized : List (List α))
    (T : α) (C B : ℕ) :
    (runEngine pattern_ids normalized T C B).inserts.flatten
      = (chunkCandidates pattern_ids.length C).filterMap
          (emitFn pattern_ids normalized T) := by
  unfold runEngine
  have h := foldl_process_flatten pattern_ids normalized T B
    (chunkCandidates pattern_ids.length C) ⟨[], [], 0⟩
  simp only [List.flatten_nil, List.nil_append] at h
  set st := (chunkCandidates pattern_ids.length C).foldl
    (processCandidate pattern_ids normalized T B) ⟨[], [], 0⟩ with hst
  rcases he : st.pairs_to_insert.isEmpty with _ | _
  · simp only [he, Bool.false_eq_true, if_false]
    simpa using h
  · simp only [he, if_true]
    rw [List.isEmpty_iff] at he
    rw [he, List.append_nil] at h
    exact h

/-- `total_pairs_found` of a whole run counts the emitted pairs. -/
lemma runEngine_total (pattern_ids : List ℤ) (normalized : List (List α))
    (T : α) (C B : ℕ) :
    (runEngine pattern_ids normalized T C B).total_pairs_found
      = ((chunkCandidates pattern_ids.length C).filterMap
          (emitFn pattern_ids normalized T)).length := by
  unfold runEngine
  have h := foldl_process_total pattern_ids normalized T B
    (chunkCandidates pattern_ids.length C) ⟨[], [], 0⟩
  simp only [Nat.zero_add] at h
  set st := (chunkCandidates pattern_ids.length C).foldl
    (processCandidate pattern_ids normalized T B) ⟨[], [], 0⟩ with hst
  rcases he : st.pairs_to_insert.isEmpty with _ | _
  · simp only [he, Bool.false_eq_true, if_false]
    exact h
  · simp only [he, if_true]
    exact h

/-- Every batch a run hands to the store is nonempty and no larger than the
insert batch size. -/
lemma runEngine_batches (pattern_ids : List ℤ) (normalized : List (List α))
    (T : α) (C B : ℕ) (hB : 0 < B) :
    ∀ bt ∈ (runEngine pattern_ids normalized T C B).inserts,
      bt ≠ [] ∧ bt.length ≤ B := by
  unfold runEngine
  have h := foldl_process_bound pattern_ids normalized T B
    (chunkCandidates pattern_ids.length C) ⟨[], [], 0⟩ (by simpa using hB) (by simp)
  set st := (chunkCandidates pattern_ids.length C).foldl
    (processCandidate pattern_ids normalized T B) ⟨[], [], 0⟩ with hst
  rcases he : st.pairs_to_insert.isEmpty with _ | _
  · simp only [he, Bool.false_eq_true, if_false]
    intro bt hbt
    rcases List.mem_append.mp hbt with hbt | hbt
    · exact h.2 bt hbt
    · rw [List.mem_singleton] at hbt
      subst hbt
      rw [List.isEmpty_eq_false] at he
      exact ⟨he, le_of_lt h.1⟩
  · simp only [he, if_true]
    exact h.2

/-- A pair reaches the store exactly when some in-range upper-triangle index
pair emits it. -/
lemma mem_runEngine_iff (pattern_ids : List ℤ) (normalized : List (List α))
    (T : α) {C : ℕ} (B : ℕ) (hC : 0 < C) {p : SimPair α} :
    p ∈ (runEngine pattern_ids normalized T C B).inserts.flatten
      ↔ ∃ a b, a < b ∧ b < pattern_ids.length
          ∧ emitFn pattern_ids normalized T (a, b) = some p := by
  rw [runEngine_flatten, List.mem_filterMap]
  constructor
  · rintro ⟨⟨a, b⟩, hab, hemit⟩
    rw [mem_chunkCandidates hC] at hab
    exact ⟨a, b, hab.1, hab.2, hemit⟩
  · rintro ⟨a, b, h1, h2, h3⟩
    exact ⟨(a, b), (mem_chunkCandidates hC).mpr ⟨h1, h2⟩, h3⟩

/-- A pair is in the dense reference result exactly when some in-range
upper-triangle index pair emits it. -/
lemma mem_densePairs_iff (pattern_ids : List ℤ) (normalized : List (List α))
    (T : α) {p : SimPair α} :
    p ∈ densePairs pattern_ids normalized T
      ↔ ∃ a b, a < b ∧ b < pattern_ids.length
          ∧ emitFn pattern_ids normalized T (a, b) = some p := by
  unfold densePairs
  simp only [List.mem_filterMap, List.mem_flatMap, List.mem_map, List.mem_filter,
    List.mem_range, decide_eq_true_eq]
  constructor
  · rintro ⟨⟨a, b⟩, ⟨i, hi, j, ⟨⟨hj, hij⟩, hpair⟩⟩, hemit⟩
    obtain ⟨rfl, rfl⟩ := Prod.mk.injEq .. ▸ hpair
    exact ⟨i, j, hij, hj, hemit⟩
  · rintro ⟨a, b, h1, h2, h3⟩
    exact ⟨(a, b), ⟨a, lt_trans h1 h2, b, ⟨⟨h2, h1⟩, rfl⟩⟩, h3⟩

/-! ## Properties of the rounding function -/

lemma le_roundHalfEven {q : α} {m : ℤ} (h : (m : α) ≤ q) : m ≤ roundHalfEven q := by
  have hf : m ≤ ⌊q⌋ := Int.le_floor.mpr h
  unfold roundHalfEven
  split_ifs <;> omega

lemma roundHalfEven_le {q : α} {m : ℤ} (h : q ≤ (m : α)) : roundHalfEven q ≤ m := by
  have hf : ⌊q⌋ ≤ m := by
    have := Int.floor_le_floor h
    rwa [Int.floor_intCast] at this
  rcases lt_or_eq_of_le hf with hlt | heq
  · unfold roundHalfEven
    split_ifs <;> omega
  · have hq : q = (m : α) := by
      refine le_antisymm h ?_
      rw [← heq]
      exact Int.floor_le q
  -- here `⌊q⌋ = m` and `q = m`, so the fractional part is `0`
    unfold roundHalfEven
    rw [if_pos]
    · omega
    · rw [heq, hq]
      norm_num

lemma roundHalfEven_intCast (m : ℤ) : roundHalfEven ((m : α)) = m :=
  le_antisymm (roundHalfEven_le le_rfl) (le_roundHalfEven le_rfl)

lemma round6_one : round6 (1 : α) = 1 := by
  unfold round6
  have h : (1 : α) * 10 ^ 6 = ((1000000 : ℤ) : α) := by norm_num
  rw [h, roundHalfEven_intCast]
  norm_num

lemma le_round6 {q : α} {m : ℤ} (h : (m : α) / 10 ^ 6 ≤ q) :
    (m : α) / 10 ^ 6 ≤ round6 q := by
  have hp : (0 : α) < 10 ^ 6 := by positivity
  have h1 : (m : α) ≤ q * 10 ^ 6 := by
    rw [div_le_iff₀ hp] at h
    exact h
  have h2 := le_roundHalfEven h1
  unfold round6
  rw [div_le_div_iff_of_pos_right hp]
  exact_mod_cast h2

lemma round6_le {q : α} {m : ℤ} (h : q ≤ (m : α) / 10 ^ 6) :
    round6 q ≤ (m : α) / 10 ^ 6 := by
  have hp : (0 : α) < 10 ^ 6 := by positivity
  have h1 : q * 10 ^ 6 ≤ (m : α) := by
    rw [le_div_iff₀ hp] at h
    exact h
  have h2 := roundHalfEven_le h1
  unfold round6
  rw [div_le_div_iff_of_pos_right hp]
  exact_mod_cast h2

/-- Rounding to six digits keeps a score that passed the `0.85` threshold at
or above the threshold, and keeps a score at most `1` at most `1`. -/
lemma round6_bounds {s : α} (h1 : (85 / 100 : α) ≤ s) (h2 : s ≤ 1) :
    (85 / 100 : α) ≤ round6 s ∧ round6 s ≤ 1 := by
  have e1 : ((850000 : ℤ) : α) / 10 ^ 6 = 85 / 100 := by norm_num
  have e2 : ((1000000 : ℤ) : α) / 10 ^ 6 = 1 := by norm_num
  constructor
  · rw [← e1]
    exact le_round6 (by rw [e1]; exact h1)
  · rw [← e2]
    exact round6_le (by rw [e2]; exact h2)

/-! ## Cauchy-Schwarz for the list dot product -/

lemma dot_nil (v : List α) : dot ([] : List α) v = 0 := by
  simp [dot]

lemma dot_nil_right (u : List α) : dot u ([] : List α) = 0 := by
  cases u <;> simp [dot]

lemma dot_cons (x y : α) (u v : List α) :
    dot (x :: u) (y :: v) = x * y + dot u v := by
  simp [dot]

lemma dot_self_nonneg : ∀ v : List α, 0 ≤ dot v v
  | [] => by simp [dot]
  | x :: v => by
    rw [dot_cons]
    exact add_nonneg (mul_self_nonneg x) (dot_self_nonneg v)

lemma dot_sq_le_dot_self : ∀ u v : List α, dot u v ^ 2 ≤ dot u u * dot v v
  | [], v => by
    simp [dot_nil, dot_self_nonneg v]
  | x :: u, [] => by
    simp [dot_nil, dot_nil_right]
  | x :: u, y :: v => by
    have ih := dot_sq_le_dot_self u v
    have hu := dot_self_nonneg u
    have hv := dot_self_nonneg v
    rw [dot_cons, dot_cons, dot_cons]
    rcases eq_or_lt_of_le hu with h0 | hpos
    · have hd : dot u v = 0 := by nlinarith [sq_nonneg (dot u v)]
      rw [hd, ← h0]
      nlinarith [mul_self_nonneg x, mul_self_nonneg y,
        mul_nonneg (mul_self_nonneg x) hv]
    · have key : dot u u * ((x * x + dot u u) * (y * y + dot v v)
              - (x * y + dot u v) ^ 2)
          = (x * dot u v - y * dot u u) ^ 2
              + (x * x + dot u u) * (dot u u * dot v v - dot u v ^ 2) := by
        ring
      have h1 : (0 : α) ≤ (x * dot u v - y * dot u u) ^ 2
          + (x * x + dot u u) * (dot u u * dot v v - dot u v ^ 2) := by
        have ha : (0 : α) ≤ x * x + dot u u :=
          add_nonneg (mul_self_nonneg x) hu
        have hb : (0 : α) ≤ dot u u * dot v v - dot u v ^ 2 := by linarith
        have := mul_nonneg ha hb
        nlinarith [sq_nonneg (x * dot u v - y * dot u u)]
      have h2 : (0 : α) ≤ dot u u * ((x * x + dot u u) * (y * y + dot v v)
          - (x * y + dot u v) ^ 2) := key ▸ h1
      nlinarith [h2, hpos]

lemma sumSq_eq_dot_self : ∀ v : List α, sumSq v = dot v v
  | [] => by simp [sumSq, dot]
  | x :: v => by
    rw [dot_cons]
    simp only [sumSq, List.map_cons, List.sum_cons]
    rw [← sumSq_eq_dot_self v]
    rfl

/-- Cosine similarity of unit-or-zero rows is at most `1`. -/
lemma dot_le_one {u v : List α} (hu : sumSq u = 1 ∨ sumSq u = 0)
    (hv : sumSq v = 1 ∨ sumSq v = 0) : dot u v ≤ 1 := by
  have h := dot_sq_le_dot_self u v
  rw [← sumSq_eq_dot_self, ← sumSq_eq_dot_self] at h
  rcases hu with h1 | h1 <;> rcases hv with h2 | h2 <;>
    rw [h1, h2] at h <;> nlinarith [h]

lemma sumSq_cons (x : α) (v : List α) : sumSq (x :: v) = x * x + sumSq v := by
  simp [sumSq]

lemma sumSq_nonneg (v : List α) : 0 ≤ sumSq v := by
  rw [sumSq_eq_dot_self]
  exact dot_self_nonneg v

lemma sumSq_eq_zero_iff : ∀ v : List α, sumSq v = 0 ↔ ∀ x ∈ v, x = 0
  | [] => by simp [sumSq]
  | y :: v => by
    rw [sumSq_cons, List.forall_mem_cons, ← sumSq_eq_zero_iff v]
    have h1 := sumSq_nonneg v
    have h2 := mul_self_nonneg y
    constructor
    · intro h
      have hy : y * y = 0 := by linarith
      exact ⟨mul_self_eq_zero.mp hy, by linarith⟩
    · rintro ⟨rfl, h⟩
      rw [h]
      ring

lemma dot_eq_zero_of_left_zero : ∀ u w : List α, (∀ x ∈ u, x = 0) → dot u w = 0
  | [], w, _ => dot_nil w
  | _ :: _, [], _ => dot_nil_right _
  | x :: u, y :: w, h => by
    rw [dot_cons, h x (by simp),
      dot_eq_zero_of_left_zero u w (fun z hz => h z (by simp [hz]))]
    ring

/-- Rows taken from a unit-or-zero matrix with the out-of-range default `[]`
are themselves unit-or-zero. -/
lemma row_unit_or_zero {normalized : List (List α)}
    (hrows : ∀ v ∈ normalized, sumSq v = 1 ∨ sumSq v = 0) (k : ℕ) :
    sumSq (normalized.getD k []) = 1 ∨ sumSq (normalized.getD k []) = 0 := by
  by_cases hk : k < normalized.length
  · rw [List.getD_eq_getElem _ _ hk]
    exact hrows _ (List.getElem_mem hk)
  · rw [List.getD_eq_default _ _ (le_of_not_lt hk)]
    right
    simp [sumSq]

/-! ## Claim theorems: the chunked engine -/

/-- C1: for every embedding set and every chunk size `C ≥ 1`, the set of
`(id_low, id_high, score)` rows submitted by the chunked similarity
computation is identical to the set obtained from the full dense similarity
matrix of the normalized vectors keeping only `i < j` entries that pass the
threshold; the chunk size affects neither the pair set nor any score. -/
theorem c1_chunk_invariance {α : Type} [LinearOrderedField α] [FloorRing α]
    (pattern_ids : List ℤ) (normalized : List (List α)) (T : α) (C B : ℕ)
    (hC : 1 ≤ C) :
    ((runEngine pattern_ids normalized T C B).inserts.flatten).toFinset
      = (densePairs pattern_ids normalized T).toFinset := by
  apply Finset.ext
  intro p
  rw [List.mem_toFinset, List.mem_toFinset,
    mem_runEngine_iff pattern_ids normalized T B hC,
    mem_densePairs_iff pattern_ids normalized T]

theorem c1_chunk_invariance_witness :
    1 ≤ 2 ∧
      ((runEngine (α := ℚ) [3, 7, 5] [[1, 0], [1, 0], [0, 1]] (85 / 100) 2 100).inserts.flatten).toFinset
        = (densePairs (α := ℚ) [3, 7, 5] [[1, 0], [1, 0], [0, 1]] (85 / 100)).toFinset :=
  ⟨by norm_num,
    c1_chunk_invariance [3, 7, 5] [[1, 0], [1, 0], [0, 1]] (85 / 100) 2 100 (by norm_num)⟩

/-- C3: when the external ids are pairwise distinct, every pair handed to the
store has `pattern_id_1 < pattern_id_2`, these being the minimum and maximum
of the ids of two records at distinct fetch positions (the comparison is on
ids, not on fetch-order indices); no self-pair is ever emitted. -/
theorem c3_canonical_order {α : Type} [LinearOrderedField α] [FloorRing α]
    (pattern_ids : List ℤ) (normalized : List (List α)) (T : α) (C B : ℕ)
    (hC : 0 < C) (hnd : pattern_ids.Nodup) (p : SimPair α)
    (hp : p ∈ (runEngine pattern_ids normalized T C B).inserts.flatten) :
    p.pattern_id_1 < p.pattern_id_2
    ∧ ∃ a b, a < b ∧ b < pattern_ids.length
        ∧ p.pattern_id_1 = min (pattern_ids.getD a 0) (pattern_ids.getD b 0)
        ∧ p.pattern_id_2 = max (pattern_ids.getD a 0) (pattern_ids.getD b 0) := by
  rw [mem_runEngine_iff pattern_ids normalized T B hC] at hp
  obtain ⟨a, b, hab, hbn, hemit⟩ := hp
  have han : a < pattern_ids.length := lt_trans hab hbn
  have hne : pattern_ids.getD a 0 ≠ pattern_ids.getD b 0 := by
    rw [List.getD_eq_getElem _ _ han, List.getD_eq_getElem _ _ hbn]
    intro hcontra
    have := (List.Nodup.getElem_inj_iff hnd).mp hcontra
    omega
  simp only [emitFn] at hemit
  split_ifs at hemit with ht hswap
  · obtain rfl := (Option.some.injEq .. ▸ hemit).symm
    refine ⟨hswap, a, b, hab, hbn, ?_, ?_⟩
    · rw [min_eq_right (le_of_lt hswap)]
    · rw [max_eq_left (le_of_lt hswap)]
  · obtain rfl := (Option.some.injEq .. ▸ hemit).symm
    have hlt : pattern_ids.getD a 0 < pattern_ids.getD b 0 :=
      lt_of_le_of_ne (le_of_not_lt hswap) hne
    refine ⟨hlt, a, b, hab, hbn, ?_, ?_⟩
    · rw [min_eq_left (le_of_lt hlt)]
    · rw [max_eq_right (le_of_lt hlt)]

theorem c3_canonical_order_witness :
    (⟨10, 20, 1⟩ : SimPair ℚ).pattern_id_1 < (⟨10, 20, 1⟩ : SimPair ℚ).pattern_id_2
    ∧ ∃ a b, a < b ∧ b < List.length [(20 : ℤ), 10]
        ∧ (⟨10, 20, 1⟩ : SimPair ℚ).pattern_id_1
            = min (List.getD [(20 : ℤ), 10] a 0) (List.getD [(20 : ℤ), 10] b 0)
        ∧ (⟨10, 20, 1⟩ : SimPair ℚ).pattern_id_2
            = max (List.getD [(20 : ℤ), 10] a 0) (List.getD [(20 : ℤ), 10] b 0) := by
  refine c3_canonical_order [20, 10] [[1, 0], [1, 0]] (85 / 100) 1 3
    (by norm_num) (by decide) ⟨10, 20, 1⟩ ?_
  have hc : chunkCandidates (List.length [(20 : ℤ), 10]) 1 = [(0, 1)] := by decide
  unfold runEngine
  rw [hc]
  norm_num [processCandidate, emitFn, dot, round6_one, List.foldl]

/-- C4: for distinct indices `i < j`, a pair is emitted exactly when the
cosine similarity of the two normalized rows reaches
`MIN_SIMILARITY_THRESHOLD`; pairs below the threshold contribute nothing to
the store stream, and every emitted pair's stored score is the similarity
rounded to six decimal digits and lies in `[threshold, 1]`. -/
theorem c4_threshold_and_score {α : Type} [LinearOrderedField α] [FloorRing α]
    (pattern_ids : List ℤ) (normalized : List (List α)) (C B i j : ℕ)
    (hC : 0 < C)
    (hrows : ∀ v ∈ normalized, sumSq v = 1 ∨ sumSq v = 0)
    (hij : i < j) (hj : j < pattern_ids.length) :
    ((∃ p, emitFn pattern_ids normalized MIN_SIMILARITY_THRESHOLD (i, j) = some p)
        ↔ MIN_SIMILARITY_THRESHOLD
            ≤ dot (normalized.getD i []) (normalized.getD j []))
    ∧ (runEngine pattern_ids normalized MIN_SIMILARITY_THRESHOLD C B).inserts.flatten
        = (chunkCandidates pattern_ids.length C).filterMap
            (emitFn pattern_ids normalized MIN_SIMILARITY_THRESHOLD)
    ∧ ∀ p, emitFn pattern_ids normalized MIN_SIMILARITY_THRESHOLD (i, j) = some p →
        p ∈ (runEngine pattern_ids normalized MIN_SIMILARITY_THRESHOLD C B).inserts.flatten
        ∧ p.similarity
            = round6 (dot (normalized.getD i []) (normalized.getD j []))
        ∧ MIN_SIMILARITY_THRESHOLD ≤ p.similarity ∧ p.similarity ≤ 1 := by
  have hsim1 : dot (normalized.getD i []) (normalized.getD j []) ≤ 1 :=
    dot_le_one (row_unit_or_zero hrows i) (row_unit_or_zero hrows j)
  refine ⟨?_, runEngine_flatten pattern_ids normalized MIN_SIMILARITY_THRESHOLD C B, ?_⟩
  · constructor
    · rintro ⟨p, hp⟩
      by_contra hno
      simp only [emitFn, if_neg hno] at hp
      exact Option.noConfusion hp
    · intro hyes
      simp only [emitFn, if_pos hyes]
      split
      · exact ⟨_, rfl⟩
      · exact ⟨_, rfl⟩
  · intro p hemit
    refine ⟨(mem_runEngine_iff pattern_ids normalized MIN_SIMILARITY_THRESHOLD B hC).mpr
      ⟨i, j, hij, hj, hemit⟩, ?_⟩
    have hth : MIN_SIMILARITY_THRESHOLD
        ≤ dot (normalized.getD i []) (normalized.getD j []) := by
      by_contra hno
      simp only [emitFn, if_neg hno] at hemit
      exact Option.noConfusion hemit
    have hb := round6_bounds
      (s := dot (normalized.getD i []) (normalized.getD j []))
      (by simpa [MIN_SIMILARITY_THRESHOLD] using hth) hsim1
    simp only [emitFn, if_pos hth] at hemit
    split at hemit
    · obtain rfl := (Option.some.injEq .. ▸ hemit).symm
      exact ⟨rfl, by simpa [MIN_SIMILARITY_THRESHOLD] using hb.1, hb.2⟩
    · obtain rfl := (Option.some.injEq .. ▸ hemit).symm
      exact ⟨rfl, by simpa [MIN_SIMILARITY_THRESHOLD] using hb.1, hb.2⟩

theorem c4_threshold_and_score_witness :
    ((∃ p, emitFn (α := ℚ) [5, 7] [[1, 0], [1, 0]] MIN_SIMILARITY_THRESHOLD (0, 1) = some p)
        ↔ MIN_SIMILARITY_THRESHOLD
            ≤ dot (List.getD [[1, 0], [1, 0]] 0 ([] : List ℚ)) (List.getD [[1, 0], [1, 0]] 1 []))
    ∧ (runEngine (α := ℚ) [5, 7] [[1, 0], [1, 0]] MIN_SIMILARITY_THRESHOLD 1 2).inserts.flatten
        = (chunkCandidates (List.length [(5 : ℤ), 7]) 1).filterMap
            (emitFn [5, 7] [[1, 0], [1, 0]] MIN_SIMILARITY_THRESHOLD)
    ∧ ∀ p, emitFn (α := ℚ) [5, 7] [[1, 0], [1, 0]] MIN_SIMILARITY_THRESHOLD (0, 1) = some p →
        p ∈ (runEngine (α := ℚ) [5, 7] [[1, 0], [1, 0]] MIN_SIMILARITY_THRESHOLD 1 2).inserts.flatten
        ∧ p.similarity
            = round6 (dot (List.getD [[1, 0], [1, 0]] 0 ([] : List ℚ)) (List.getD [[1, 0], [1, 0]] 1 []))
        ∧ MIN_SIMILARITY_THRESHOLD ≤ p.similarity ∧ p.similarity ≤ 1 :=
  c4_threshold_and_score [5, 7] [[1, 0], [1, 0]] 1 2 0 1 (by norm_num)
    (by
      intro v hv
      rcases List.mem_cons.mp hv with rfl | hv
      · left; norm_num [sumSq]
      · rcases List.mem_cons.mp hv with rfl | hv
        · left; norm_num [sumSq]
        · exact absurd hv (List.not_mem_nil v))
    (by norm_num) (by norm_num)

/-- C6: every qualifying pair goes through the single accumulation buffer and
is handed to the store exactly once - the concatenation of all flushed batches
is exactly the emitted-pair stream - and, when the insert batch size is
positive, every batch handed to the store is nonempty and no larger than the
batch size. -/
theorem c6_batching {α : Type} [LinearOrderedField α] [FloorRing α]
    (pattern_ids : List ℤ) (normalized : List (List α)) (T : α) (C B : ℕ)
    (hB : 1 ≤ B) :
    (runEngine pattern_ids normalized T C B).inserts.flatten
      = (chunkCandidates pattern_ids.length C).filterMap
          (emitFn pattern_ids normalized T)
    ∧ ∀ bt ∈ (runEngine pattern_ids normalized T C B).inserts,
        bt ≠ [] ∧ bt.length ≤ B :=
  ⟨runEngine_flatten pattern_ids normalized T C B,
    runEngine_batches pattern_ids normalized T C B hB⟩

theorem c6_batching_witness :
    (runEngine (α := ℚ) [1, 2, 3] [[1], [1], [1]] (85 / 100) 2 1).inserts.flatten
      = (chunkCandidates (List.length [(1 : ℤ), 2, 3]) 2).filterMap
          (emitFn [1, 2, 3] [[1], [1], [1]] (85 / 100))
    ∧ ∀ bt ∈ (runEngine (α := ℚ) [1, 2, 3] [[1], [1], [1]] (85 / 100) 2 1).inserts,
        bt ≠ [] ∧ bt.length ≤ 1 :=
  c6_batching [1, 2, 3] [[1], [1], [1]] (85 / 100) 2 1 (by norm_num)

/-! ## Claim theorems: the normalizer -/

/-- C5: the normalizer is total and never divides by zero: a row of Euclidean
norm `0` (equivalently, the all-zero row) is mapped to the all-zero row of the
same length, any other row is mapped to itself divided by its norm, and the
similarity of a normalized zero row against anything is `0`. -/
theorem c5_normalizer_safe (v w : List ℝ) :
    (Real.sqrt (sumSq v) = 0 → normalizeRow v = v.map (fun _ => 0))
    ∧ (Real.sqrt (sumSq v) ≠ 0 →
        normalizeRow v = v.map (fun x => x / Real.sqrt (sumSq v)))
    ∧ (Real.sqrt (sumSq v) = 0 → dot (normalizeRow v) w = 0)
    ∧ normalize_embeddings [v] = [normalizeRow v] := by
  have hz : Real.sqrt (sumSq v) = 0 → ∀ x ∈ v, x = 0 := by
    intro h0
    rw [← sumSq_eq_zero_iff]
    exact (Real.sqrt_eq_zero (sumSq_nonneg v)).mp h0
  have hmapzero : Real.sqrt (sumSq v) = 0 → normalizeRow v = v.map (fun _ => 0) := by
    intro h0
    simp only [normalizeRow, h0, if_pos]
    apply List.map_congr_left
    intro x hx
    rw [hz h0 x hx]
    norm_num
  refine ⟨hmapzero, ?_, ?_, by simp [normalize_embeddings]⟩
  · intro hnz
    simp only [normalizeRow, if_neg hnz]
  · intro h0
    rw [hmapzero h0]
    apply dot_eq_zero_of_left_zero
    intro x hx
    obtain ⟨y, _, rfl⟩ := List.mem_map.mp hx
    rfl

lemma sumSq_map_div (v : List ℝ) (d : ℝ) :
    sumSq (v.map (fun x => x / d)) = sumSq v / (d * d) := by
  induction v with
  | nil => simp [sumSq]
  | cons x v ih =>
    rw [List.map_cons, sumSq_cons, sumSq_cons, ih, div_mul_div_comm, add_div]

/-- The rows produced by the normalizer are unit rows or zero rows, so the
unit-or-zero hypothesis of the threshold/score theorem holds of the actual
pipeline input. -/
lemma normalize_embeddings_rows (es : List (List ℝ)) :
    ∀ v ∈ normalize_embeddings es, sumSq v = 1 ∨ sumSq v = 0 := by
  intro v hv
  rw [normalize_embeddings, List.mem_map] at hv
  obtain ⟨u, _, rfl⟩ := hv
  by_cases h0 : Real.sqrt (sumSq u) = 0
  · right
    simp only [normalizeRow, h0, if_pos]
    rw [sumSq_map_div]
    rw [Real.sqrt_eq_zero (sumSq_nonneg u)] at h0
    simp [h0]
  · left
    simp only [normalizeRow, if_neg h0]
    rw [sumSq_map_div, Real.mul_self_sqrt (sumSq_nonneg u)]
    have hne : sumSq u ≠ 0 := by
      intro hcontra
      exact h0 (by rw [hcontra, Real.sqrt_zero])
    exact div_self hne

theorem c5_normalizer_safe_witness :
    normalizeRow [0, 0] = [0, 0] ∧ dot (normalizeRow [0, 0]) [3, 4] = 0 := by
  have h := c5_normalizer_safe [0, 0] [3, 4]
  have h0 : Real.sqrt (sumSq [(0 : ℝ), 0]) = 0 := by
    norm_num [sumSq]
  refine ⟨?_, h.2.2.1 h0⟩
  have h1 := h.1 h0
  simpa using h1

/-! ## Claim theorems: the end-to-end scenario -/

/-- C2: on the four dimension-3 embeddings `[1,0,0]`, `[1,0,0]`, `[0,1,0]`,
`[0,0,0]` with ids `10, 11, 12, 13` and the configured threshold `0.85`, the
pipeline hands the store exactly one pair, `{id_low 10, id_high 11, score 1}`,
in a single batch. -/
theorem c2_end_to_end_scenario :
    (compute_and_store_similarities [10, 11, 12, 13]
        [[1, 0, 0], [1, 0, 0], [0, 1, 0], [0, 0, 0]]).inserts
      = [[⟨10, 11, 1⟩]]
    ∧ (compute_and_store_similarities [10, 11, 12, 13]
        [[1, 0, 0], [1, 0, 0], [0, 1, 0], [0, 0, 0]]).total_pairs_found = 1 := by
  have hn : normalize_embeddings [[1, 0, 0], [1, 0, 0], [0, 1, 0], [0, 0, 0]]
      = [[1, 0, 0], [1, 0, 0], [0, 1, 0], [0, 0, 0]] := by
    norm_num [normalize_embeddings, normalizeRow, sumSq]
  have hc : chunkCandidates (List.length [(10 : ℤ), 11, 12, 13]) CHUNK_SIZE
      = [(0, 1), (0, 2), (0, 3), (1, 2), (1, 3), (2, 3)] := by decide
  unfold compute_and_store_similarities runEngine
  rw [hn, hc]
  norm_num [processCandidate, emitFn, dot, round6_one, List.foldl,
    MIN_SIMILARITY_THRESHOLD, INSERT_BATCH_SIZE]

/-! ## Claim theorems: orchestration of `main` -/

/-- Evaluation of the pipeline on the two-record store used by the
orchestration instances: two identical unit rows with ids `1` and `2`. -/
lemma compute_two_records :
    compute_and_store_similarities [1, 2] [[1, 0], [1, 0]]
      = ⟨[[⟨1, 2, 1⟩]], [], 1⟩ := by
  have hn : normalize_embeddings [[1, 0], [1, 0]] = [[1, 0], [1, 0]] := by
    norm_num [normalize_embeddings, normalizeRow, sumSq]
  have hc : chunkCandidates (List.length [(1 : ℤ), 2]) CHUNK_SIZE = [(0, 1)] := by
    decide
  unfold compute_and_store_similarities runEngine
  rw [hn, hc]
  norm_num [processCandidate, emitFn, dot, round6_one, List.foldl,
    MIN_SIMILARITY_THRESHOLD, INSERT_BATCH_SIZE]

/-- The complete observable behaviour of `main` on one non-empty fetch of the
two-record store, for any clear status and any insert statuses. -/
lemma mainModel_two_records (cs : ℕ) (f : ℕ → ℕ) :
    mainModel [Except.ok [(1, [1, 0]), (2, [1, 0])]] cs f
      = ⟨[StoreOp.clear, StoreOp.upsert [⟨1, 2, 1⟩]], false, clear_warns cs,
          if insert_warns (f 0) then 1 else 0, some 1⟩ := by
  unfold mainModel
  simp [get_all_embeddings, Except.map, compute_two_records, List.filter]
  rcases h : insert_warns (f 0) with _ | _ <;> simp [h]

/-- C7: if fetching the embeddings fails, the run dies with the exception
before any store mutation: no clear and no upsert is ever issued. -/
theorem c7_fetch_failure_aborts (pages : List (Except Unit (List (ℤ × List ℝ))))
    (clearStatus : ℕ) (insertStatus : ℕ → ℕ) (e : Unit)
    (h : get_all_embeddings pages = .error e) :
    (mainModel pages clearStatus insertStatus).ops = []
    ∧ (mainModel pages clearStatus insertStatus).fatal = true := by
  unfold mainModel
  rw [h]
  exact ⟨rfl, rfl⟩

theorem c7_fetch_failure_aborts_witness :
    (mainModel [Except.error ()] 200 (fun _ => 200)).ops = []
    ∧ (mainModel [Except.error ()] 200 (fun _ => 200)).fatal = true :=
  c7_fetch_failure_aborts [Except.error ()] 200 (fun _ => 200) () rfl

/-- C10: when the fetch yields zero records, `main` returns before the clear
phase: no clear, no upsert, no summary - the store's prior contents are left
untouched. -/
theorem c10_empty_fetch_no_mutation (pages : List (Except Unit (List (ℤ × List ℝ))))
    (clearStatus : ℕ) (insertStatus : ℕ → ℕ)
    (h : get_all_embeddings pages = .ok []) :
    (mainModel pages clearStatus insertStatus).ops = []
    ∧ (mainModel pages clearStatus insertStatus).fatal = false
    ∧ (mainModel pages clearStatus insertStatus).summaryFound = none := by
  unfold mainModel
  rw [h]
  exact ⟨rfl, rfl, rfl⟩

theorem c10_empty_fetch_no_mutation_witness :
    (mainModel [] 200 (fun _ => 200)).ops = []
    ∧ (mainModel [] 200 (fun _ => 200)).fatal = false
    ∧ (mainModel [] 200 (fun _ => 200)).summaryFound = none :=
  c10_empty_fetch_no_mutation [] 200 (fun _ => 200) rfl

/-- C8 counterexample: with a genuine clear failure (status `500`, not a
missing-table `404`), the run does not stop - it proceeds to compute and
issues the upsert into the uncleared store. -/
theorem c8_counterexample :
    (500 : ℕ) ∉ [200, 204, 404]
    ∧ (mainModel [Except.ok [(1, [1, 0]), (2, [1, 0])]] 500 (fun _ => 200)).ops
        = [StoreOp.clear, StoreOp.upsert [⟨1, 2, 1⟩]]
    ∧ (mainModel [Except.ok [(1, [1, 0]), (2, [1, 0])]] 500 (fun _ => 200)).fatal
        = false := by
  refine ⟨by decide, ?_, ?_⟩ <;> rw [mainModel_two_records]

/-- C8 as the code actually behaves: a genuine clear failure (status outside
`{200, 204, 404}`) only prints a warning; the run is not fatal and issues
exactly the same store mutations as a successful clear. -/
theorem c8_clear_failure_warns_and_continues
    (pages : List (Except Unit (List (ℤ × List ℝ))))
    (clearStatus : ℕ) (insertStatus : ℕ → ℕ)
    (records : List (ℤ × List ℝ))
    (hf : get_all_embeddings pages = .ok records) (hne : records ≠ [])
    (hcs : clearStatus ∉ [200, 204, 404]) :
    (mainModel pages clearStatus insertStatus).clearWarned = true
    ∧ (mainModel pages clearStatus insertStatus).fatal = false
    ∧ (mainModel pages clearStatus insertStatus).ops
        = (mainModel pages 200 insertStatus).ops := by
  have hlen : records.length ≠ 0 := fun h => hne (List.length_eq_zero.mp h)
  unfold mainModel
  rw [hf]
  simp [hlen, clear_warns, hcs]

theorem c8_clear_failure_warns_and_continues_witness :
    (mainModel [Except.ok [(1, [1, 0]), (2, [1, 0])]] 500 (fun _ => 200)).clearWarned = true
    ∧ (mainModel [Except.ok [(1, [1, 0]), (2, [1, 0])]] 500 (fun _ => 200)).fatal = false
    ∧ (mainModel [Except.ok [(1, [1, 0]), (2, [1, 0])]] 500 (fun _ => 200)).ops
        = (mainModel [Except.ok [(1, [1, 0]), (2, [1, 0])]] 200 (fun _ => 200)).ops :=
  c8_clear_failure_warns_and_continues [Except.ok [(1, [1, 0]), (2, [1, 0])]]
    500 (fun _ => 200) [(1, [1, 0]), (2, [1, 0])] rfl (by simp) (by decide)

/-- C9 counterexample: a run whose only insert batch fails (status `500`)
prints an insert warning, yet its end-of-run summary is identical to the
summary of the fully successful run - the summary reports the count of pairs
found and nothing about how many were successfully stored. -/
theorem c9_counterexample :
    (mainModel [Except.ok [(1, [1, 0]), (2, [1, 0])]] 200 (fun _ => 500)).insertWarnings = 1
    ∧ (mainModel [Except.ok [(1, [1, 0]), (2, [1, 0])]] 200 (fun _ => 500)).summaryFound
        = (mainModel [Except.ok [(1, [1, 0]), (2, [1, 0])]] 200 (fun _ => 200)).summaryFound := by
  rw [mainModel_two_records, mainModel_two_records]
  norm_num [insert_warns]

/-- C9 as the code actually behaves: failed insert batches are warned about
and the run continues, issuing every batch regardless of earlier failures;
the end-of-run summary reports the count of pairs found, but carries no count
of successfully stored pairs (it does not depend on the insert outcomes). -/
theorem c9_flush_failure_warns_and_continues
    (pages : List (Except Unit (List (ℤ × List ℝ))))
    (clearStatus : ℕ) (insertStatus : ℕ → ℕ)
    (records : List (ℤ × List ℝ))
    (hf : get_all_embeddings pages = .ok records) (hne : records ≠ []) :
    (mainModel pages clearStatus insertStatus).ops
        = (mainModel pages clearStatus (fun _ => 200)).ops
    ∧ (mainModel pages clearStatus insertStatus).summaryFound
        = some (compute_and_store_similarities (records.map Prod.fst)
            (records.map Prod.snd)).total_pairs_found
    ∧ (mainModel pages clearStatus insertStatus).insertWarnings
        = ((List.range (compute_and_store_similarities (records.map Prod.fst)
              (records.map Prod.snd)).inserts.length).filter
            (fun k => insert_warns (insertStatus k))).length
    ∧ (mainModel pages clearStatus insertStatus).summaryFound
        = (mainModel pages clearStatus (fun _ => 200)).summaryFound := by
  have hlen : records.length ≠ 0 := fun h => hne (List.length_eq_zero.mp h)
  unfold mainModel
  rw [hf]
  simp [hlen]

theorem c9_flush_failure_warns_and_continues_witness :
    (mainModel [Except.ok [(1, [1, 0]), (2, [1, 0])]] 200 (fun _ => 500)).ops
        = (mainModel [Except.ok [(1, [1, 0]), (2, [1, 0])]] 200 (fun _ => 200)).ops
    ∧ (mainModel [Except.ok [(1, [1, 0]), (2, [1, 0])]] 200 (fun _ => 500)).summaryFound
        = some (compute_and_store_similarities
            (List.map Prod.fst [(1, [1, 0]), (2, [1, 0])])
            (List.map Prod.snd [((1 : ℤ), [(1 : ℝ), 0]), (2, [1, 0])])).total_pairs_found
    ∧ (mainModel [Except.ok [(1, [1, 0]), (2, [1, 0])]] 200 (fun _ => 500)).insertWarnings
        = ((List.range (compute_and_store_similarities
              (List.map Prod.fst [(1, [1, 0]), (2, [1, 0])])
              (List.map Prod.snd [((1 : ℤ), [(1 : ℝ), 0]), (2, [1, 0])])).inserts.length).filter
            (fun _ => insert_warns 500)).length
    ∧ (mainModel [Except.ok [(1, [1, 0]), (2, [1, 0])]] 200 (fun _ => 500)).summaryFound
        = (mainModel [Except.ok [(1, [1, 0]), (2, [1, 0])]] 200 (fun _ => 200)).summaryFound :=
  c9_flush_failure_warns_and_continues [Except.ok [(1, [1, 0]), (2, [1, 0])]]
    200 (fun _ => 500) [(1, [1, 0]), (2, [1, 0])] rfl (by simp)

end CompSim
